import Mathlib

/-!
Shallow embedding of the Babylon contract's BTC light client
(`contracts/babylon/src/state/btc_light_client.rs`) and of the
transaction-inclusion verifier (`src/utils/bitcoin.rs`).

Modelling conventions:
* Byte strings are `List Nat`.
* The contract's key-value storage (`cw_storage_plus` `Map`/`Item`) is an
  explicit `Storage` record holding association lists for the two maps and
  `Option` values for the two singleton items.  `Map::save` overwrites,
  `Map::remove` deletes, `Map::load` looks up.
* Values are stored as decoded `BtcHeaderInfo` records rather than prost
  byte strings: prost encoding is injective and `decode (encode x) = x`,
  so equality of stored records corresponds exactly to byte-for-byte
  equality of the stored byte strings, and decoding a value this module
  itself stored never fails.
* External primitives that the spec lists as consumed interfaces
  (Bitcoin wire-format header/transaction decoding, the network
  proof-of-work rule, double-SHA256) are collected in an `Env` record and
  quantified over; concrete instantiations are used for witnesses.
-/

namespace BabylonLC

abbrev Bytes := List Nat

/-- Bitcoin network kind (`babylon_bitcoin::chain_params::Network`). -/
inductive Network where
  | mainnet
  | testnet
  | signet
  | regtest
deriving DecidableEq

/-- A decoded 80-byte Bitcoin block header (`babylon_bitcoin::BlockHeader`):
version, previous-block-hash, merkle-root, time, bits, nonce. -/
structure BlockHeader where
  version : Nat
  prev_blockhash : Bytes
  merkle_root : Bytes
  time : Nat
  bits : Nat
  nonce : Nat
deriving DecidableEq

/-- A Bitcoin transaction, as far as this module observes it.  Modelled from
the spec: the only parts of a decoded transaction that the verifier inspects
are its null-data (OP_RETURN) output payload, and its transaction hash (the
latter is supplied by `Env.tx_hash`). -/
structure Transaction where
  null_data : Option Bytes
deriving DecidableEq

/-- The `BtcHeaderInfo` protobuf message: raw serialized header bytes, the
block hash used as the primary key, the height, and the cumulative work
accumulated from the base header through this header.  The cumulative work
is modelled as a `Nat` (the source stores its big-integer byte encoding). -/
structure BtcHeaderInfo where
  header : Bytes
  hash : Bytes
  height : Nat
  work : Nat
deriving DecidableEq

/-- The contract configuration record (`state::config::Config`). -/
structure Config where
  network : Network
  babylon_tag : Bytes
  btc_confirmation_depth : Nat
  checkpoint_finalization_timeout : Nat
  notify_cosmos_zone : Bool
deriving DecidableEq

/-- External primitives consumed by the light client, per the spec's list of
consumed external interfaces: Bitcoin wire-format decoding, the
network-specific proof-of-work rule, and double-SHA256 hashing. -/
structure Env where
  deserialize_header : Bytes → Option BlockHeader
  pow_ok : Network → BlockHeader → Bool
  hash256 : Bytes → Bytes
  block_hash : BlockHeader → Bytes
  tx_hash : Transaction → Bytes
  deserialize_tx : Bytes → Option Transaction

/-- Errors of the light client (`error::BTCLightclientError`).
`LoopOutOfFuel` is the model's rendering of a non-terminating
`remove_headers` loop; it is never reached from a coherent store. -/
inductive BTCLightclientError where
  | StdError
  | InitError
  | BTCHeaderDecodeError
  | BTCHeaderError
  | BTCHeaderNotFoundError (hash : Bytes)
  | BTCHeaderEmpty
  | BTCChainWithNotEnoughWork (new_work : Nat) (cur_work : Nat)
  | LoopOutOfFuel
deriving DecidableEq

instance {ε α : Type} [DecidableEq ε] [DecidableEq α] : DecidableEq (Except ε α) := fun a b =>
  match a, b with
  | .ok x, .ok y =>
      if h : x = y then .isTrue (by rw [h]) else .isFalse (by intro hc; cases hc; exact h rfl)
  | .ok _, .error _ => .isFalse (by intro hc; cases hc)
  | .error _, .ok _ => .isFalse (by intro hc; cases hc)
  | .error x, .error y =>
      if h : x = y then .isTrue (by rw [h]) else .isFalse (by intro hc; cases hc; exact h rfl)

/-- Lookup in an association-list map (`Map::load` / `may_load`). -/
def mLookup {β : Type} : List (Bytes × β) → Bytes → Option β
  | [], _ => none
  | (k, v) :: rest, key => if k = key then some v else mLookup rest key

/-- Save into an association-list map, overwriting the key if present
(`Map::save`). -/
def mSave {β : Type} : List (Bytes × β) → Bytes → β → List (Bytes × β)
  | [], key, val => [(key, val)]
  | (k, v) :: rest, key, val =>
    if k = key then (key, val) :: rest else (k, v) :: mSave rest key val

/-- Delete a key from an association-list map (`Map::remove`). -/
def mRemove {β : Type} : List (Bytes × β) → Bytes → List (Bytes × β)
  | [], _ => []
  | (k, v) :: rest, key => if k = key then rest else (k, v) :: mRemove rest key

/-- The contract storage: the `BTC_HEADERS` map, the `BTC_HEIGHTS` map, the
`BTC_HEADER_BASE` item, the `BTC_TIP` item, and the `CONFIG` item. -/
structure Storage where
  btc_headers : List (Bytes × BtcHeaderInfo)
  btc_heights : List (Bytes × Nat)
  btc_header_base : Option BtcHeaderInfo
  btc_tip : Option BtcHeaderInfo
  config : Option Config
deriving DecidableEq

/-- is_initialized checks if the BTC light client has been initialised,
by checking existence of the base header. -/
def is_initialized (s : Storage) : Bool :=
  s.btc_header_base.isSome

/-- get_base_header loads and decodes the base header. -/
def get_base_header (s : Storage) : Except BTCLightclientError BtcHeaderInfo :=
  match s.btc_header_base with
  | none => .error .StdError
  | some b => .ok b

def set_base_header (s : Storage) (base_header : BtcHeaderInfo) : Storage :=
  { s with btc_header_base := some base_header }

/-- get_tip loads and decodes the chain tip. -/
def get_tip (s : Storage) : Except BTCLightclientError BtcHeaderInfo :=
  match s.btc_tip with
  | none => .error .StdError
  | some t => .ok t

def set_tip (s : Storage) (tip : BtcHeaderInfo) : Storage :=
  { s with btc_tip := some tip }

/-- get_header retrieves the BTC header of a given hash; absence is a
`BTCHeaderNotFoundError` (decoding a value this module stored always
succeeds under the encoding model). -/
def get_header (s : Storage) (hash : Bytes) : Except BTCLightclientError BtcHeaderInfo :=
  match mLookup s.btc_headers hash with
  | none => .error (.BTCHeaderNotFoundError hash)
  | some h => .ok h

/-- insert_headers inserts verified BTC headers into the header storage and
the hash-to-height index. -/
def insert_headers (s : Storage) (new_headers : List BtcHeaderInfo) : Storage :=
  new_headers.foldl
    (fun st new_header =>
      { st with
        btc_headers := mSave st.btc_headers new_header.hash new_header
        btc_heights := mSave st.btc_heights new_header.hash new_header.height })
    s

/-- Remove one header's entries from both the header map and the height
index (the two `remove` calls of one `remove_headers` loop iteration). -/
def removeBoth (s : Storage) (key : Bytes) : Storage :=
  { s with
    btc_headers := mRemove s.btc_headers key
    btc_heights := mRemove s.btc_heights key }

/-- The `while` loop of `remove_headers`, with explicit fuel standing for
the (in Rust, unbounded) iteration count: while the visited header's hash
differs from the parent's, remove the visited header's entries, decode the
visited header's raw bytes to obtain its parent hash, and move to the
parent via `get_header`. -/
def remove_headers_loop (env : Env) :
    Nat → Storage → BtcHeaderInfo → BtcHeaderInfo →
    Except BTCLightclientError Unit × Storage
  | 0, s, _, _ => (.error .LoopOutOfFuel, s)
  | fuel + 1, s, rem_header, parent_header =>
    if rem_header.hash = parent_header.hash then (.ok (), s)
    else
      let s1 := removeBoth s rem_header.hash
      match env.deserialize_header rem_header.header with
      | none => (.error .BTCHeaderDecodeError, s1)
      | some rem_btc_header =>
        match get_header s1 rem_btc_header.prev_blockhash with
        | .error e => (.error e, s1)
        | .ok next => remove_headers_loop env fuel s1 next parent_header

/-- remove_headers removes BTC headers of a losing fork from the header
chain storages, starting from the fork's tip and walking parent-by-parent
until hitting the parent (fork point) header.  The fuel bound
`|btc_headers| + 1` suffices for every walk the Rust loop completes:
each iteration removes one stored header before moving on. -/
def remove_headers (env : Env) (s : Storage)
    (tip_header parent_header : BtcHeaderInfo) :
    Except BTCLightclientError Unit × Storage :=
  remove_headers_loop env (s.btc_headers.length + 1) s tip_header parent_header

/-- Modelled from the spec: the header verification protocol of
`utils::btc_light_client::verify_headers` (repository code outside the
provided sources).  Given a trusted starting header and ordered candidate
headers, for each candidate in order: decode it; confirm its encoded
parent-hash equals the hash of the previous header in the sequence (the
trusted starting header for the first candidate); verify its proof-of-work
under the network's difficulty rule.  Any failure aborts the whole batch. -/
def verify_headers (env : Env) (net : Network) :
    BtcHeaderInfo → List BtcHeaderInfo → Except BTCLightclientError Unit
  | _, [] => .ok ()
  | prev, h :: rest =>
    match env.deserialize_header h.header with
    | none => .error .BTCHeaderDecodeError
    | some btc_h =>
      if btc_h.prev_blockhash ≠ prev.hash then .error .BTCHeaderError
      else if env.pow_ok net btc_h = false then .error .BTCHeaderError
      else verify_headers env net h rest

/-- Modelled from the spec: `utils::btc_light_client::total_work`
(repository code outside the provided sources) reads the cumulative work
recorded in a `BtcHeaderInfo`; it is used only as a comparison metric
between two candidate tips. -/
def total_work (h : BtcHeaderInfo) : Except BTCLightclientError Nat :=
  .ok h.work

/-- init initialises the BTC header chain storage: requires the
configuration, at least `checkpoint_finalization_timeout + 1` headers,
a base header that decodes and passes the network proof-of-work check, and
subsequent headers verifying as a chain from the base; then persists the
base header, inserts all headers, and sets the tip to the last header. -/
def init (env : Env) (s : Storage) (headers : List BtcHeaderInfo) :
    Except BTCLightclientError Unit × Storage :=
  match s.config with
  | none => (.error .StdError, s)
  | some cfg =>
    if headers.length < cfg.checkpoint_finalization_timeout + 1 then
      (.error .InitError, s)
    else
      match headers.head? with
      | none => (.error .InitError, s)
      | some base_header =>
        match env.deserialize_header base_header.header with
        | none => (.error .BTCHeaderDecodeError, s)
        | some base_btc_header =>
          if env.pow_ok cfg.network base_btc_header = false then
            (.error .BTCHeaderError, s)
          else
            match verify_headers env cfg.network base_header headers.tail with
            | .error e => (.error e, s)
            | .ok _ =>
              let s1 := set_base_header s base_header
              let s2 := insert_headers s1 headers
              match headers.getLast? with
              | none => (.error .InitError, s2)
              | some last_header => (.ok (), set_tip s2 last_header)

/-- handle_btc_headers_from_babylon verifies and inserts a batch of new BTC
headers, updating the chain tip: extension when the first new header's
parent is the current tip, otherwise fork handling with a strict
cumulative-work comparison followed by insertion of the fork and removal of
the losing branch. -/
def handle_btc_headers_from_babylon (env : Env) (s : Storage)
    (new_headers : List BtcHeaderInfo) :
    Except BTCLightclientError Unit × Storage :=
  match s.config with
  | none => (.error .StdError, s)
  | some cfg =>
    match s.btc_tip with
    | none => (.error .StdError, s)
    | some cur_tip =>
      match new_headers.head? with
      | none => (.error .BTCHeaderEmpty, s)
      | some first_new_header =>
        match env.deserialize_header first_new_header.header with
        | none => (.error .BTCHeaderDecodeError, s)
        | some first_new_btc_header =>
          if first_new_btc_header.prev_blockhash = cur_tip.hash then
            match verify_headers env cfg.network cur_tip new_headers with
            | .error e => (.error e, s)
            | .ok _ =>
              let s1 := insert_headers s new_headers
              match new_headers.getLast? with
              | none => (.error .BTCHeaderEmpty, s1)
              | some new_tip => (.ok (), set_tip s1 new_tip)
          else
            match get_header s first_new_btc_header.prev_blockhash with
            | .error e => (.error e, s)
            | .ok fork_parent =>
              match verify_headers env cfg.network fork_parent new_headers with
              | .error e => (.error e, s)
              | .ok _ =>
                match new_headers.getLast? with
                | none => (.error .BTCHeaderEmpty, s)
                | some new_tip =>
                  match total_work new_tip, total_work cur_tip with
                  | .error e, _ => (.error e, s)
                  | _, .error e => (.error e, s)
                  | .ok new_tip_work, .ok cur_tip_work =>
                    if new_tip_work ≤ cur_tip_work then
                      (.error (.BTCChainWithNotEnoughWork new_tip_work cur_tip_work), s)
                    else
                      let s1 := insert_headers s new_headers
                      let s2 := set_tip s1 new_tip
                      remove_headers env s2 cur_tip fork_parent

/-! The transaction-inclusion verifier (`src/utils/bitcoin.rs`). -/

/-- Modelled from the spec: the fixed sibling-hash size of a Merkle
inclusion proof (`MERKLE_PROOF_ELEM_SIZE`, a constant of the generated
protobuf package): 32-byte double-SHA256 hashes. -/
def MERKLE_PROOF_ELEM_SIZE : Nat := 32

/-- Modelled from the spec: the fixed width of the leading tag field of a
checkpoint payload (`TAG_LEN`). -/
def TAG_LEN : Nat := 4

/-- Modelled from the spec: the fixed header fields of a checkpoint payload
(`HEADER_LEN`): the tag followed by one version/part byte. -/
def HEADER_LEN : Nat := TAG_LEN + 1

/-- Modelled from the spec: the currently supported maximum protocol
version of a checkpoint payload (`CURRENT_VERSION`). -/
def CURRENT_VERSION : Nat := 0

/-- Modelled from the spec: the exact payload size of the first half of a
two-part checkpoint (`FIRST_PART_LEN`). -/
def FIRST_PART_LEN : Nat := 78

/-- Modelled from the spec: the exact payload size of the second half of a
two-part checkpoint (`SECOND_PART_LEN`); differs from `FIRST_PART_LEN`. -/
def SECOND_PART_LEN : Nat := 73

/-- Rust `chunks_exact(MERKLE_PROOF_ELEM_SIZE)`: the complete 32-byte chunks of
a byte string, leftovers dropped (the source checks separately that the
remainder is empty). -/
def chunksExact (l : Bytes) : List Bytes :=
  if h : MERKLE_PROOF_ELEM_SIZE ≤ l.length then
    l.take MERKLE_PROOF_ELEM_SIZE :: chunksExact (l.drop MERKLE_PROOF_ELEM_SIZE)
  else []
termination_by l.length
decreasing_by
  simp only [List.length_drop, MERKLE_PROOF_ELEM_SIZE] at *
  omega

/-- Modelled from the spec: the Merkle-root fold of
`babylon_bitcoin::merkle::verify_merkle_proof` (repository code outside the
provided sources): starting from the transaction's own hash, combine with
each sibling in the proof-specified position (left/right determined by the
transaction index's bit at that tree level), hashing pairwise with
double-SHA256, until a single root remains. -/
def compute_merkle_root (env : Env) : Bytes → List Bytes → Nat → Bytes
  | cur, [], _ => cur
  | cur, sibling :: rest, idx =>
    let combined := if idx % 2 = 0 then cur ++ sibling else sibling ++ cur
    compute_merkle_root env (env.hash256 combined) rest (idx / 2)

/-- Modelled from the spec: `babylon_bitcoin::merkle::verify_merkle_proof`
(repository code outside the provided sources) recomputes the Merkle root
implied by the proof and compares it with the expected root. -/
def verify_merkle_proof (env : Env) (tx : Transaction) (proof : List Bytes)
    (idx : Nat) (root : Bytes) : Bool :=
  compute_merkle_root env (env.tx_hash tx) proof idx == root

/-- The `TransactionKey` protobuf message: the block hash the transaction
claims to be in, and its index within that block. -/
structure TransactionKey where
  hash : Bytes
  index : Nat
deriving DecidableEq

/-- The `TransactionInfo` protobuf message: the optional transaction key, the
raw transaction bytes, and the Merkle inclusion proof bytes. -/
structure TransactionInfo where
  key : Option TransactionKey
  transaction : Bytes
  proof : Bytes
deriving DecidableEq

/-- parse_tx_info checks the given tx_info against the given btc_header:
the proof length must be an exact multiple of the sibling-hash size, the
transaction key must be present with its header hash equal to the header's
own computed block hash, the raw transaction must deserialize, and the
Merkle proof must check out against the header's merkle root; on success
the decoded transaction is returned. -/
def parse_tx_info (env : Env) (tx_info : TransactionInfo)
    (btc_header : BlockHeader) : Except String Transaction :=
  let root := btc_header.merkle_root
  if tx_info.proof.length % MERKLE_PROOF_ELEM_SIZE ≠ 0 then
    .error "proof has a remainder"
  else
    let proof := chunksExact tx_info.proof
    match tx_info.key with
    | none => .error "empty tx key"
    | some tx_key =>
      let header_hash := tx_key.hash
      let tx_idx := tx_key.index
      if env.block_hash btc_header ≠ header_hash then
        .error "BTC header does not match"
      else
        match env.deserialize_tx tx_info.transaction with
        | none => .error "failed to decode BTC tx"
        | some btc_tx =>
          if verify_merkle_proof env btc_tx proof tx_idx root = false then
            .error "failed to verify Bitcoin Merkle proof"
          else .ok btc_tx

/-- Result of `extract_checkpoint_data`: `panicked` models a Rust panic
(an out-of-bounds slice or index), as distinguished from a returned
`Err`. -/
inductive ExtractResult where
  | panicked
  | err (msg : String)
  | ok (data : Bytes)
deriving DecidableEq

/-- Modelled from the spec:
`babylon_bitcoin::op_return::extract_op_return_data` (repository code
outside the provided sources) locates the transaction's null-data
(OP_RETURN) output and extracts its payload bytes, failing if no such
output exists or it is malformed. -/
def extract_op_return_data (btc_tx : Transaction) : Except String Bytes :=
  match btc_tx.null_data with
  | none => .error "no op_return data in this BTC tx"
  | some data => .ok data

/-- extract_checkpoint_data extracts the checkpoint data of the given tx:
after locating the null-data payload, it checks the exact payload length
for part 0 or part 1, the leading tag field, the version nibble against the
supported maximum, and the part nibble against the supplied index, then
returns the bytes after the fixed header fields.  Each raw slice/index of
the source is guarded here by the bound whose violation makes Rust
panic. -/
def extract_checkpoint_data (btc_tx : Transaction) (tag : Bytes) (idx : Nat) :
    ExtractResult :=
  match extract_op_return_data btc_tx with
  | .error e => .err e
  | .ok op_return_data =>
    if idx = 0 ∧ op_return_data.length ≠ FIRST_PART_LEN then
      .err "invalid length for the first part"
    else if idx = 1 ∧ op_return_data.length ≠ SECOND_PART_LEN then
      .err "invalid length for the second part"
    else if op_return_data.length < TAG_LEN then
      .panicked
    else if tag ≠ op_return_data.take TAG_LEN then
      .err "data does not have expected tag"
    else if op_return_data.length ≤ TAG_LEN then
      .panicked
    else
      let ver_half := (op_return_data.drop TAG_LEN).headD 0
      let version := ver_half % 16
      if version > CURRENT_VERSION then
        .err "header have invalid version"
      else
        let part := ver_half / 16
        if idx ≠ part then
          .err "header have invalid part number"
        else if op_return_data.length < HEADER_LEN then
          .panicked
        else
          .ok (op_return_data.drop HEADER_LEN)

/-! Association-list map lemmas. -/

theorem mLookup_mSave_self {β : Type} (m : List (Bytes × β)) (k : Bytes) (v : β) :
    mLookup (mSave m k v) k = some v := by
  induction m with
  | nil => simp [mSave, mLookup]
  | cons p rest ih =>
    obtain ⟨a, b⟩ := p
    by_cases h : a = k
    · simp [mSave, h, mLookup]
    · simp [mSave, h, mLookup, ih]

theorem mLookup_mSave_ne {β : Type} (m : List (Bytes × β)) (k k' : Bytes) (v : β)
    (h : k' ≠ k) : mLookup (mSave m k v) k' = mLookup m k' := by
  induction m with
  | nil =>
    simp only [mSave, mLookup]
    rw [if_neg (fun hc => h hc.symm)]
  | cons p rest ih =>
    obtain ⟨a, b⟩ := p
    by_cases ha : a = k
    · subst ha
      simp only [mSave, if_pos rfl, mLookup]
      rw [if_neg (fun hc => h hc.symm), if_neg (fun hc => h hc.symm)]
    · simp only [mSave, if_neg ha, mLookup]
      by_cases ha' : a = k'
      · rw [if_pos ha', if_pos ha']
      · rw [if_neg ha', if_neg ha']
        exact ih

theorem mLookup_mRemove_ne {β : Type} (m : List (Bytes × β)) (k k' : Bytes)
    (h : k' ≠ k) : mLookup (mRemove m k) k' = mLookup m k' := by
  induction m with
  | nil => simp [mRemove]
  | cons p rest ih =>
    obtain ⟨a, b⟩ := p
    by_cases ha : a = k
    · subst ha
      have hak : a ≠ k' := fun hc => h hc.symm
      simp [mRemove, mLookup, hak]
    · by_cases ha' : a = k'
      · subst ha'
        simp [mRemove, mLookup, ha]
      · simp [mRemove, mLookup, ha, ha', ih]

theorem mLookup_none_mRemove {β : Type} (m : List (Bytes × β)) (k k' : Bytes)
    (h : mLookup m k = none) : mLookup (mRemove m k') k = none := by
  induction m with
  | nil => simp [mRemove, mLookup]
  | cons p rest ih =>
    obtain ⟨a, b⟩ := p
    by_cases ha : a = k
    · rw [mLookup, if_pos ha] at h
      exact absurd h (by simp)
    · rw [mLookup, if_neg ha] at h
      by_cases ha' : a = k'
      · rw [mRemove, if_pos ha']
        exact h
      · rw [mRemove, if_neg ha', mLookup, if_neg ha]
        exact ih h

theorem mLookup_eq_none_of_not_mem {β : Type} (m : List (Bytes × β)) (k : Bytes)
    (h : k ∉ m.map Prod.fst) : mLookup m k = none := by
  induction m with
  | nil => rfl
  | cons p rest ih =>
    obtain ⟨a, b⟩ := p
    simp only [List.map_cons, List.mem_cons] at h
    push_neg at h
    rw [mLookup, if_neg (fun hc => h.1 hc.symm)]
    exact ih h.2

theorem mLookup_mRemove_self {β : Type} (m : List (Bytes × β)) (k : Bytes)
    (h : (m.map Prod.fst).Nodup) : mLookup (mRemove m k) k = none := by
  induction m with
  | nil => simp [mRemove, mLookup]
  | cons p rest ih =>
    obtain ⟨a, b⟩ := p
    simp only [List.map_cons, List.nodup_cons] at h
    by_cases ha : a = k
    · subst ha
      rw [mRemove, if_pos rfl]
      exact mLookup_eq_none_of_not_mem rest a h.1
    · rw [mRemove, if_neg ha, mLookup, if_neg ha]
      exact ih h.2

theorem mRemove_map_fst_sublist {β : Type} (m : List (Bytes × β)) (k : Bytes) :
    ((mRemove m k).map Prod.fst).Sublist (m.map Prod.fst) := by
  induction m with
  | nil => simp [mRemove]
  | cons p rest ih =>
    obtain ⟨a, b⟩ := p
    by_cases ha : a = k
    · simp only [mRemove, if_pos ha, List.map_cons]
      exact List.sublist_cons_self _ _
    · simp only [mRemove, if_neg ha, List.map_cons]
      exact ih.cons₂ a

theorem mRemove_keys_nodup {β : Type} (m : List (Bytes × β)) (k : Bytes)
    (h : (m.map Prod.fst).Nodup) : ((mRemove m k).map Prod.fst).Nodup :=
  (mRemove_map_fst_sublist m k).nodup h

theorem mSave_keys {β : Type} (m : List (Bytes × β)) (k : Bytes) (v : β) :
    (mSave m k v).map Prod.fst = m.map Prod.fst
      ∨ (mSave m k v).map Prod.fst = m.map Prod.fst ++ [k] := by
  induction m with
  | nil => right; simp [mSave]
  | cons p rest ih =>
    obtain ⟨a, b⟩ := p
    by_cases ha : a = k
    · left
      subst ha
      simp [mSave]
    · rcases ih with h1 | h1
      · left
        simp only [mSave, if_neg ha, List.map_cons, h1]
      · right
        simp only [mSave, if_neg ha, List.map_cons, h1, List.cons_append]

theorem mSave_keys_nodup {β : Type} (m : List (Bytes × β)) (k : Bytes) (v : β)
    (h : (m.map Prod.fst).Nodup) :
    ((mSave m k v).map Prod.fst).Nodup := by
  induction m with
  | nil => simp [mSave]
  | cons p rest ih =>
    obtain ⟨a, b⟩ := p
    simp only [List.map_cons, List.nodup_cons] at h
    by_cases ha : a = k
    · subst ha
      have hs : mSave ((a, b) :: rest) a v = (a, v) :: rest := by simp [mSave]
      rw [hs]
      simp only [List.map_cons, List.nodup_cons]
      exact ⟨h.1, h.2⟩
    · simp only [mSave, if_neg ha, List.map_cons, List.nodup_cons]
      refine ⟨?_, ih h.2⟩
      intro hmem
      rcases mSave_keys rest k v with he | he
      · rw [he] at hmem
        exact h.1 hmem
      · rw [he] at hmem
        rcases List.mem_append.mp hmem with h2 | h2
        · exact h.1 h2
        · simp only [List.mem_singleton] at h2
          exact ha h2

theorem mRemove_length {β : Type} (m : List (Bytes × β)) (k : Bytes) (v : β)
    (h : mLookup m k = some v) : (mRemove m k).length + 1 = m.length := by
  induction m with
  | nil => simp [mLookup] at h
  | cons p rest ih =>
    obtain ⟨a, b⟩ := p
    by_cases ha : a = k
    · simp [mRemove, ha]
    · simp only [mLookup, if_neg ha] at h
      simp [mRemove, ha, ih h]

theorem distinct_present_le_length {β : Type} :
    ∀ (ks : List Bytes) (m : List (Bytes × β)), ks.Nodup →
      (∀ k ∈ ks, (mLookup m k).isSome) → ks.length ≤ m.length := by
  intro ks
  induction ks with
  | nil => intro m _ _; simp
  | cons k0 rest ih =>
    intro m hnd hpres
    have h0 : (mLookup m k0).isSome := hpres k0 (List.mem_cons_self _ _)
    obtain ⟨v, hv⟩ := Option.isSome_iff_exists.mp h0
    have hlen := mRemove_length m k0 v hv
    simp only [List.nodup_cons] at hnd
    have hrest : ∀ k ∈ rest, (mLookup (mRemove m k0) k).isSome := by
      intro k hk
      rw [mLookup_mRemove_ne m k0 k (fun hc => hnd.1 (hc ▸ hk))]
      exact hpres k (List.mem_cons_of_mem _ hk)
    have := ih (mRemove m k0) hnd.2 hrest
    simp only [List.length_cons]
    omega

/-! Lemmas about `insert_headers`. -/

theorem insert_headers_nil (s : Storage) : insert_headers s [] = s := rfl

theorem insert_headers_cons (s : Storage) (h : BtcHeaderInfo)
    (rest : List BtcHeaderInfo) :
    insert_headers s (h :: rest) =
      insert_headers
        { s with
          btc_headers := mSave s.btc_headers h.hash h
          btc_heights := mSave s.btc_heights h.hash h.height } rest := rfl

theorem insert_headers_tip (s : Storage) (N : List BtcHeaderInfo) :
    (insert_headers s N).btc_tip = s.btc_tip := by
  induction N generalizing s with
  | nil => rfl
  | cons h rest ih =>
    rw [insert_headers_cons]
    exact ih _

theorem insert_headers_base (s : Storage) (N : List BtcHeaderInfo) :
    (insert_headers s N).btc_header_base = s.btc_header_base := by
  induction N generalizing s with
  | nil => rfl
  | cons h rest ih =>
    rw [insert_headers_cons]
    exact ih _

theorem insert_headers_config (s : Storage) (N : List BtcHeaderInfo) :
    (insert_headers s N).config = s.config := by
  induction N generalizing s with
  | nil => rfl
  | cons h rest ih =>
    rw [insert_headers_cons]
    exact ih _

theorem insert_headers_lookup_not_mem (s : Storage) (N : List BtcHeaderInfo)
    (k : Bytes) (hk : k ∉ N.map BtcHeaderInfo.hash) :
    mLookup (insert_headers s N).btc_headers k = mLookup s.btc_headers k ∧
    mLookup (insert_headers s N).btc_heights k = mLookup s.btc_heights k := by
  induction N generalizing s with
  | nil => exact ⟨rfl, rfl⟩
  | cons h rest ih =>
    simp only [List.map_cons, List.mem_cons] at hk
    push_neg at hk
    rw [insert_headers_cons]
    have hr := ih { s with
        btc_headers := mSave s.btc_headers h.hash h
        btc_heights := mSave s.btc_heights h.hash h.height } hk.2
    constructor
    · rw [hr.1]
      exact mLookup_mSave_ne s.btc_headers h.hash k h hk.1
    · rw [hr.2]
      exact mLookup_mSave_ne s.btc_heights h.hash k h.height hk.1

theorem insert_headers_lookup_mem (s : Storage) (N : List BtcHeaderInfo)
    (hnd : (N.map BtcHeaderInfo.hash).Nodup) (h : BtcHeaderInfo) (hmem : h ∈ N) :
    mLookup (insert_headers s N).btc_headers h.hash = some h ∧
    mLookup (insert_headers s N).btc_heights h.hash = some h.height := by
  induction N generalizing s with
  | nil => cases hmem
  | cons h0 rest ih =>
    simp only [List.map_cons, List.nodup_cons] at hnd
    rcases List.mem_cons.mp hmem with he | hm
    · subst he
      rw [insert_headers_cons]
      have hr := insert_headers_lookup_not_mem
        { s with
          btc_headers := mSave s.btc_headers h.hash h
          btc_heights := mSave s.btc_heights h.hash h.height } rest h.hash hnd.1
      refine ⟨?_, ?_⟩
      · rw [hr.1]
        exact mLookup_mSave_self s.btc_headers h.hash h
      · rw [hr.2]
        exact mLookup_mSave_self s.btc_heights h.hash h.height
    · rw [insert_headers_cons]
      exact ih _ hnd.2 hm

theorem insert_headers_keys_nodup (s : Storage) (N : List BtcHeaderInfo)
    (h : (s.btc_headers.map Prod.fst).Nodup) :
    ((insert_headers s N).btc_headers.map Prod.fst).Nodup := by
  induction N generalizing s with
  | nil => exact h
  | cons h0 rest ih =>
    rw [insert_headers_cons]
    exact ih _ (mSave_keys_nodup s.btc_headers h0.hash h0 h)

/-! The lockstep invariant between the header map and the height index. -/

/-- Project a header-map entry to the corresponding height-index entry. -/
def heightOf (p : Bytes × BtcHeaderInfo) : Bytes × Nat := (p.1, p.2.height)

/-- The height index is, entry for entry, the projection of the header map:
the strong form of the spec's "maintained in lockstep" invariant.  The
empty store satisfies it, and every operation of this module preserves
it. -/
def InSync (s : Storage) : Prop :=
  s.btc_heights = s.btc_headers.map heightOf

/-- The observable index agreement: both maps have exactly the same keys,
and for every stored header the height entry under its key equals that
header's height field. -/
def IndexesMatch (s : Storage) : Prop :=
  s.btc_heights.map Prod.fst = s.btc_headers.map Prod.fst ∧
  ∀ k hi, mLookup s.btc_headers k = some hi →
    mLookup s.btc_heights k = some hi.height

theorem mSave_map_height (m : List (Bytes × BtcHeaderInfo)) (k : Bytes)
    (v : BtcHeaderInfo) :
    (mSave m k v).map heightOf = mSave (m.map heightOf) k v.height := by
  induction m with
  | nil => rfl
  | cons p rest ih =>
    obtain ⟨a, b⟩ := p
    by_cases ha : a = k
    · simp [mSave, ha, heightOf]
    · simp [mSave, ha, heightOf, ih]

theorem mRemove_map_height (m : List (Bytes × BtcHeaderInfo)) (k : Bytes) :
    (mRemove m k).map heightOf = mRemove (m.map heightOf) k := by
  induction m with
  | nil => rfl
  | cons p rest ih =>
    obtain ⟨a, b⟩ := p
    by_cases ha : a = k
    · simp [mRemove, ha, heightOf]
    · simp [mRemove, ha, heightOf, ih]

theorem mLookup_map_height (m : List (Bytes × BtcHeaderInfo)) (k : Bytes) :
    mLookup (m.map heightOf) k = (mLookup m k).map BtcHeaderInfo.height := by
  induction m with
  | nil => rfl
  | cons p rest ih =>
    obtain ⟨a, b⟩ := p
    by_cases ha : a = k
    · simp [mLookup, ha, heightOf]
    · simp [mLookup, ha, heightOf, ih]

theorem insync_indexes_match (s : Storage) (h : InSync s) : IndexesMatch s := by
  constructor
  · rw [h]
    simp [heightOf, List.map_map, Function.comp]
  · intro k hi hl
    rw [h, mLookup_map_height, hl]
    rfl

theorem insync_insert_headers (s : Storage) (N : List BtcHeaderInfo)
    (h : InSync s) : InSync (insert_headers s N) := by
  induction N generalizing s with
  | nil => exact h
  | cons h0 rest ih =>
    rw [insert_headers_cons]
    apply ih
    show mSave s.btc_heights h0.hash h0.height =
      (mSave s.btc_headers h0.hash h0).map heightOf
    rw [mSave_map_height, h]

theorem insync_removeBoth (s : Storage) (k : Bytes) (h : InSync s) :
    InSync (removeBoth s k) := by
  show mRemove s.btc_heights k = (mRemove s.btc_headers k).map heightOf
  rw [mRemove_map_height, h]

theorem insync_set_tip (s : Storage) (t : BtcHeaderInfo) (h : InSync s) :
    InSync (set_tip s t) := h

theorem insync_set_base (s : Storage) (b : BtcHeaderInfo) (h : InSync s) :
    InSync (set_base_header s b) := h

theorem insync_loop (env : Env) : ∀ (fuel : Nat) (s : Storage)
    (a b : BtcHeaderInfo), InSync s →
    InSync (remove_headers_loop env fuel s a b).2 := by
  intro fuel
  induction fuel with
  | zero =>
    intro s a b h
    exact h
  | succ n ih =>
    intro s a b h
    rw [remove_headers_loop]
    by_cases he : a.hash = b.hash
    · rw [if_pos he]
      exact h
    · rw [if_neg he]
      cases hd : env.deserialize_header a.header with
      | none => exact insync_removeBoth s a.hash h
      | some d =>
        cases hg : get_header (removeBoth s a.hash) d.prev_blockhash with
        | error e =>
          simp only [hg]
          exact insync_removeBoth s a.hash h
        | ok next =>
          simp only [hg]
          exact ih _ _ _ (insync_removeBoth s a.hash h)

/-! Characterization of the fork-removal walk. -/

/-- Erase a list of keys from an association-list map, in order. -/
def eraseKeys {β : Type} (m : List (Bytes × β)) (ks : List Bytes) :
    List (Bytes × β) :=
  ks.foldl mRemove m

theorem eraseKeys_nil {β : Type} (m : List (Bytes × β)) : eraseKeys m [] = m := rfl

theorem eraseKeys_cons {β : Type} (m : List (Bytes × β)) (k : Bytes)
    (ks : List Bytes) : eraseKeys m (k :: ks) = eraseKeys (mRemove m k) ks := rfl

theorem mLookup_eraseKeys_not_mem {β : Type} (ks : List Bytes) :
    ∀ (m : List (Bytes × β)) (k : Bytes), k ∉ ks →
      mLookup (eraseKeys m ks) k = mLookup m k := by
  induction ks with
  | nil => intro m k _; rfl
  | cons k0 rest ih =>
    intro m k hk
    simp only [List.mem_cons] at hk
    push_neg at hk
    rw [eraseKeys_cons, ih _ k hk.2]
    exact mLookup_mRemove_ne m k0 k hk.1

theorem mLookup_eraseKeys_none {β : Type} (ks : List Bytes) :
    ∀ (m : List (Bytes × β)) (k : Bytes), mLookup m k = none →
      mLookup (eraseKeys m ks) k = none := by
  induction ks with
  | nil => intro m k h; exact h
  | cons k0 rest ih =>
    intro m k h
    rw [eraseKeys_cons]
    exact ih _ k (mLookup_none_mRemove m k k0 h)

theorem mLookup_eraseKeys_mem {β : Type} (ks : List Bytes) :
    ∀ (m : List (Bytes × β)) (k : Bytes), (m.map Prod.fst).Nodup → k ∈ ks →
      mLookup (eraseKeys m ks) k = none := by
  induction ks with
  | nil =>
    intro m k _ hk
    cases hk
  | cons k0 rest ih =>
    intro m k hnd hk
    rw [eraseKeys_cons]
    rcases List.mem_cons.mp hk with he | hm
    · subst he
      exact mLookup_eraseKeys_none rest _ k (mLookup_mRemove_self m k hnd)
    · exact ih _ k (mRemove_keys_nodup m k0 hnd) hm

/-- The shape of a losing branch as the `remove_headers` walk visits it:
`WalkChain env fp b bs` says `bs` is a non-empty list beginning at `b`,
each element's raw header bytes decode to a block header whose parent
pointer is the next element's hash, and the last element's parent pointer
is the fork point `fp`'s hash. -/
inductive WalkChain (env : Env) (fp : BtcHeaderInfo) :
    BtcHeaderInfo → List BtcHeaderInfo → Prop where
  | last (b : BtcHeaderInfo) (d : BlockHeader)
      (hdec : env.deserialize_header b.header = some d)
      (hprev : d.prev_blockhash = fp.hash) :
      WalkChain env fp b [b]
  | step (b next : BtcHeaderInfo) (rest : List BtcHeaderInfo) (d : BlockHeader)
      (hdec : env.deserialize_header b.header = some d)
      (hprev : d.prev_blockhash = next.hash)
      (htail : WalkChain env fp next rest) :
      WalkChain env fp b (b :: rest)

theorem walkchain_head (env : Env) (fp b : BtcHeaderInfo)
    (bs : List BtcHeaderInfo) (h : WalkChain env fp b bs) : b ∈ bs := by
  cases h with
  | last b d hdec hprev => exact List.mem_singleton.mpr rfl
  | step b next rest d hdec hprev htail => exact List.mem_cons_self _ _

/-- The `remove_headers` loop, run on a well-formed losing branch, succeeds
and removes from both indices exactly the entries keyed by the branch
headers' hashes, in visit order; on every visit the visited header is still
present (was looked up from storage before its own removal), and the walk
stops at the fork point without touching its entries. -/
theorem remove_headers_loop_ok (env : Env) (fp : BtcHeaderInfo)
    (b0 : BtcHeaderInfo) (bs : List BtcHeaderInfo)
    (hchain : WalkChain env fp b0 bs) :
    ∀ (s : Storage) (fuel : Nat),
      bs.length + 1 ≤ fuel →
      (∀ b2 ∈ bs, mLookup s.btc_headers b2.hash = some b2) →
      (∀ b2 ∈ bs, b2.hash ≠ fp.hash) →
      ((bs.map BtcHeaderInfo.hash).Nodup) →
      (∃ v, mLookup s.btc_headers fp.hash = some v ∧ v.hash = fp.hash) →
      remove_headers_loop env fuel s b0 fp =
        (.ok (),
         { s with
           btc_headers := eraseKeys s.btc_headers (bs.map BtcHeaderInfo.hash)
           btc_heights := eraseKeys s.btc_heights (bs.map BtcHeaderInfo.hash) }) := by
  induction hchain with
  | last b d hdec hprev =>
    intro s fuel hfuel hstored hne hnd hfp
    obtain ⟨n, rfl⟩ : ∃ n, fuel = n + 1 := ⟨fuel - 1, by omega⟩
    obtain ⟨m, rfl⟩ : ∃ m, n = m + 1 := ⟨n - 1, by simp at hfuel; omega⟩
    obtain ⟨v, hv, hvh⟩ := hfp
    have hbne : b.hash ≠ fp.hash := hne b (List.mem_singleton.mpr rfl)
    rw [remove_headers_loop, if_neg hbne, hdec]
    have hlk : get_header (removeBoth s b.hash) d.prev_blockhash = .ok v := by
      rw [get_header, hprev]
      show (match mLookup (mRemove s.btc_headers b.hash) fp.hash with
        | none => (.error (.BTCHeaderNotFoundError fp.hash) :
            Except BTCLightclientError BtcHeaderInfo)
        | some h => .ok h) = .ok v
      rw [mLookup_mRemove_ne s.btc_headers b.hash fp.hash
        (fun hc => hbne hc.symm), hv]
    simp only [hlk]
    rw [remove_headers_loop, if_pos hvh]
    rfl
  | step b next rest d hdec hprev htail ih =>
    intro s fuel hfuel hstored hne hnd hfp
    obtain ⟨n, rfl⟩ : ∃ n, fuel = n + 1 := ⟨fuel - 1, by omega⟩
    simp only [List.length_cons] at hfuel
    simp only [List.map_cons, List.nodup_cons] at hnd
    have hbne : b.hash ≠ fp.hash := hne b (List.mem_cons_self _ _)
    have hnext_mem : next ∈ rest := walkchain_head env fp next rest htail
    have hnext_ne : next.hash ≠ b.hash := by
      intro hc
      exact hnd.1 (hc ▸ List.mem_map_of_mem BtcHeaderInfo.hash hnext_mem)
    rw [remove_headers_loop, if_neg hbne, hdec]
    have hlk : get_header (removeBoth s b.hash) d.prev_blockhash = .ok next := by
      rw [get_header, hprev]
      show (match mLookup (mRemove s.btc_headers b.hash) next.hash with
        | none => (.error (.BTCHeaderNotFoundError next.hash) :
            Except BTCLightclientError BtcHeaderInfo)
        | some h => .ok h) = .ok next
      rw [mLookup_mRemove_ne s.btc_headers b.hash next.hash hnext_ne,
        hstored next (List.mem_cons_of_mem _ hnext_mem)]
    simp only [hlk]
    have hrec := ih (removeBoth s b.hash) n
      (by omega)
      (by
        intro b2 hb2
        show mLookup (mRemove s.btc_headers b.hash) b2.hash = some b2
        have hb2ne : b2.hash ≠ b.hash := by
          intro hc
          exact hnd.1 (hc ▸ List.mem_map_of_mem BtcHeaderInfo.hash hb2)
        rw [mLookup_mRemove_ne s.btc_headers b.hash b2.hash hb2ne]
        exact hstored b2 (List.mem_cons_of_mem _ hb2))
      (fun b2 hb2 => hne b2 (List.mem_cons_of_mem _ hb2))
      hnd.2
      (by
        obtain ⟨v, hv, hvh⟩ := hfp
        refine ⟨v, ?_, hvh⟩
        show mLookup (mRemove s.btc_headers b.hash) fp.hash = some v
        rw [mLookup_mRemove_ne s.btc_headers b.hash fp.hash
          (fun hc => hbne hc.symm)]
        exact hv)
    rw [hrec]
    rfl

theorem head?_getLast? {α : Type} : ∀ (l : List α) (a : α),
    l.head? = some a → ∃ b, l.getLast? = some b := by
  intro l
  induction l with
  | nil =>
    intro a h
    cases h
  | cons x xs ih =>
    intro a _
    cases xs with
    | nil => exact ⟨x, rfl⟩
    | cons y ys =>
      obtain ⟨b, hb⟩ := ih y rfl
      exact ⟨b, by rw [List.getLast?_cons_cons]; exact hb⟩

/-! Concrete data for witnesses: a four-byte-free toy setting where header
bytes are read back as the parent hash and proof-of-work always passes. -/

/-- A concrete environment instantiation used by the witnesses. -/
def envW : Env where
  deserialize_header := fun b => some ⟨0, b, [], 0, 0, 0⟩
  pow_ok := fun _ _ => true
  hash256 := fun b => 7 :: b
  block_hash := fun h => h.prev_blockhash
  tx_hash := fun _ => [5]
  deserialize_tx := fun b => some ⟨some b⟩

def cfgW : Config := ⟨.regtest, [1, 2, 3, 4], 1, 2, false⟩

/-- Genesis-like base header of the witness store. -/
def hdrG : BtcHeaderInfo := ⟨[9], [0], 0, 1⟩

/-- Child of `hdrG`, the witness store's tip. -/
def hdrA : BtcHeaderInfo := ⟨[0], [1], 1, 10⟩

/-- Fork child of `hdrG` with work equal to the tip's. -/
def hdrB : BtcHeaderInfo := ⟨[0], [2], 1, 10⟩

/-- Fork child of `hdrG` with more work than the tip. -/
def hdrB2 : BtcHeaderInfo := ⟨[0], [3], 1, 20⟩

/-- Extension child of `hdrA`. -/
def hdrC : BtcHeaderInfo := ⟨[1], [4], 2, 20⟩

/-- The witness store: base `hdrG`, tip `hdrA`, both indexed. -/
def sW : Storage :=
  { btc_headers := [([0], hdrG), ([1], hdrA)]
    btc_heights := [([0], 0), ([1], 1)]
    btc_header_base := some hdrG
    btc_tip := some hdrA
    config := some cfgW }

/-- C1: for every initialized store and every competing chain `F` rooted at
a known ancestor (its first header's parent is a stored header other than
the tip) that passes chain verification, if the cumulative work of `F`'s
last header is less than or equal to the current tip's cumulative work
(equality included), then `handle_btc_headers_from_babylon F` returns the
insufficient-work error carrying both work values and returns the storage
unchanged, so the tip record, the header-by-hash index and the
height-by-hash index are byte-for-byte those of the pre-call store. -/
theorem claim_C1 (env : Env) (s : Storage) (cfg : Config)
    (cur_tip fork_parent first last_h : BtcHeaderInfo) (fb : BlockHeader)
    (F : List BtcHeaderInfo)
    (hcfg : s.config = some cfg)
    (htip : s.btc_tip = some cur_tip)
    (hfirst : F.head? = some first)
    (hdec : env.deserialize_header first.header = some fb)
    (hfork : fb.prev_blockhash ≠ cur_tip.hash)
    (hparent : mLookup s.btc_headers fb.prev_blockhash = some fork_parent)
    (hverify : verify_headers env cfg.network fork_parent F = .ok ())
    (hlast : F.getLast? = some last_h)
    (hwork : last_h.work ≤ cur_tip.work) :
    handle_btc_headers_from_babylon env s F =
      (.error (.BTCChainWithNotEnoughWork last_h.work cur_tip.work), s) := by
  simp only [handle_btc_headers_from_babylon, hcfg, htip, hfirst, hdec,
    if_neg hfork, get_header, hparent, hverify, hlast, total_work,
    if_pos hwork]

/-- Witness for C1: a concrete equal-work fork ([hdrB], work 10 against
tip work 10) is rejected with both work values and the store returned
unchanged. -/
theorem claim_C1_witness :
    handle_btc_headers_from_babylon envW sW [hdrB] =
      (.error (.BTCChainWithNotEnoughWork 10 10), sW) :=
  claim_C1 envW sW cfgW hdrA hdrG hdrB hdrB ⟨0, [0], [], 0, 0, 0⟩ [hdrB]
    rfl rfl rfl rfl (by decide) (by decide) (by decide) rfl (by decide)

/-- Every failing path of `init` returns before the first storage write:
`init` either succeeds or returns the storage unchanged. -/
theorem init_ok_or_unchanged (env : Env) (s : Storage)
    (headers : List BtcHeaderInfo) :
    (init env s headers).1 = .ok () ∨ (init env s headers).2 = s := by
  rw [init]
  split
  · exact Or.inr rfl
  split
  · exact Or.inr rfl
  split
  · exact Or.inr rfl
  split
  · exact Or.inr rfl
  split
  · exact Or.inr rfl
  split
  · exact Or.inr rfl
  split
  · exfalso
    rename_i hl
    obtain ⟨b2, hb2⟩ := head?_getLast? headers _ (by assumption)
    rw [hb2] at hl
    cases hl
  · exact Or.inl rfl

def hdrX : BtcHeaderInfo := ⟨[3], [5], 1, 30⟩

def hdrY : BtcHeaderInfo := ⟨[5], [6], 2, 40⟩

/-- C3 counterexample: `init` never checks `is_initialized`.  On the
already-initialized concrete store `sW`, a second `init` with a fresh valid
batch of `w + 1 = 3` headers succeeds and overwrites the base header, so the
claim that a second call must fail without mutating storage is false of the
code. -/
theorem claim_C3_counterexample :
    is_initialized sW = true ∧
    (init envW sW [hdrB2, hdrX, hdrY]).1 = .ok () ∧
    (init envW sW [hdrB2, hdrX, hdrY]).2.btc_header_base ≠ sW.btc_header_base := by
  decide

/-- C3 (amended): `init` does not itself check for prior initialization
(the guard lives outside this module), so a second call that passes
validation succeeds and overwrites state; what does hold is that whenever a
call to `init` on an initialized store fails with an error, it mutates no
storage record — base header, tip, header index and height index are all
unchanged. -/
theorem claim_C3 (env : Env) (s : Storage) (headers : List BtcHeaderInfo)
    (e : BTCLightclientError)
    (hinit : is_initialized s = true)
    (herr : (init env s headers).1 = .error e) :
    (init env s headers).2 = s := by
  rcases init_ok_or_unchanged env s headers with h | h
  · rw [herr] at h
    exact absurd h (by simp)
  · exact h

/-- Witness for C3 (amended): a too-short second batch fails and leaves the
concrete initialized store untouched. -/
theorem claim_C3_witness : (init envW sW [hdrB2]).2 = sW :=
  claim_C3 envW sW [hdrB2] .InitError (by decide) (by decide)

/-- The empty, configured store used by the `init` witnesses. -/
def sEmpty : Storage :=
  { btc_headers := []
    btc_heights := []
    btc_header_base := none
    btc_tip := none
    config := some cfgW }

/-- C4: for every header batch whose first header decodes and passes the
network proof-of-work check and whose consecutive pairs verify (parent-hash
linkage and proof-of-work), `init` succeeds if and only if the batch length
is at least `checkpoint_finalization_timeout + 1`; and whenever `init`
fails for any reason during validation, no storage key is written. -/
theorem claim_C4 (env : Env) (s : Storage) (cfg : Config)
    (headers : List BtcHeaderInfo) (h0 : BtcHeaderInfo) (d0 : BlockHeader)
    (hcfg : s.config = some cfg)
    (hhead : headers.head? = some h0)
    (hdec : env.deserialize_header h0.header = some d0)
    (hpow : env.pow_ok cfg.network d0 = true)
    (hverify : verify_headers env cfg.network h0 headers.tail = .ok ()) :
    ((init env s headers).1 = .ok () ↔
      cfg.checkpoint_finalization_timeout + 1 ≤ headers.length) ∧
    ∀ (s2 : Storage) (hs2 : List BtcHeaderInfo) (e : BTCLightclientError),
      (init env s2 hs2).1 = .error e → (init env s2 hs2).2 = s2 := by
  constructor
  · constructor
    · intro hok
      by_contra hlt
      rw [not_le] at hlt
      simp only [init, hcfg, if_pos hlt] at hok
      exact absurd hok (by simp)
    · intro hge
      obtain ⟨lst, hl⟩ := head?_getLast? headers h0 hhead
      simp [init, hcfg, if_neg (not_lt.mpr hge), hhead, hdec, hpow, hverify, hl]
  · intro s2 hs2 e herr
    rcases init_ok_or_unchanged env s2 hs2 with h | h
    · rw [herr] at h
      exact absurd h (by simp)
    · exact h

/-- Witness for C4 on a concrete valid three-header batch against the
configured `w = 2`. -/
theorem claim_C4_witness :
    ((init envW sEmpty [hdrG, hdrA, hdrC]).1 = .ok () ↔
      cfgW.checkpoint_finalization_timeout + 1 ≤
        ([hdrG, hdrA, hdrC] : List BtcHeaderInfo).length) ∧
    ∀ (s2 : Storage) (hs2 : List BtcHeaderInfo) (e : BTCLightclientError),
      (init envW s2 hs2).1 = .error e → (init envW s2 hs2).2 = s2 :=
  claim_C4 envW sEmpty cfgW [hdrG, hdrA, hdrC] hdrG ⟨0, [9], [], 0, 0, 0⟩
    rfl rfl rfl rfl (by decide)

/-- C5: for every configured store with a tip and every non-empty batch `N`
whose first element's encoded parent hash equals the tip's hash (and whose
hashes are pairwise distinct, as block hashes are),
`handle_btc_headers_from_babylon N` succeeds if and only if the whole batch
passes the header verification protocol rooted at the tip (parent-hash
linkage and proof-of-work for every consecutive link); on success the tip
is `N`'s last element and every header of `N` is retrievable via
`get_header` with its height recorded in the height index. -/
theorem claim_C5 (env : Env) (s : Storage) (cfg : Config)
    (cur_tip first : BtcHeaderInfo) (fb : BlockHeader) (N : List BtcHeaderInfo)
    (hcfg : s.config = some cfg)
    (htip : s.btc_tip = some cur_tip)
    (hfirst : N.head? = some first)
    (hdec : env.deserialize_header first.header = some fb)
    (hext : fb.prev_blockhash = cur_tip.hash)
    (hnd : (N.map BtcHeaderInfo.hash).Nodup) :
    ((handle_btc_headers_from_babylon env s N).1 = .ok () ↔
      verify_headers env cfg.network cur_tip N = .ok ()) ∧
    (verify_headers env cfg.network cur_tip N = .ok () →
      ∃ last_h, N.getLast? = some last_h ∧
        (handle_btc_headers_from_babylon env s N).2.btc_tip = some last_h ∧
        ∀ h2 ∈ N,
          get_header (handle_btc_headers_from_babylon env s N).2 h2.hash = .ok h2 ∧
          mLookup (handle_btc_headers_from_babylon env s N).2.btc_heights h2.hash =
            some h2.height) := by
  cases hv : verify_headers env cfg.network cur_tip N with
  | error e =>
    have hhandle : handle_btc_headers_from_babylon env s N = (.error e, s) := by
      simp only [handle_btc_headers_from_babylon, hcfg, htip, hfirst, hdec,
        if_pos hext, hv]
    refine ⟨by rw [hhandle], fun h2 => absurd h2 (by simp)⟩
  | ok u =>
    obtain ⟨lastH, hlast⟩ := head?_getLast? N first hfirst
    have hhandle : handle_btc_headers_from_babylon env s N =
        (.ok (), set_tip (insert_headers s N) lastH) := by
      simp only [handle_btc_headers_from_babylon, hcfg, htip, hfirst, hdec,
        if_pos hext, hv, hlast]
    constructor
    · rw [hhandle]
    · intro _
      refine ⟨lastH, hlast, ?_, ?_⟩
      · rw [hhandle]
        rfl
      · intro h2 hmem
        have hl := insert_headers_lookup_mem s N hnd h2 hmem
        rw [hhandle]
        constructor
        · have hg : get_header (set_tip (insert_headers s N) lastH) h2.hash =
              (match mLookup (insert_headers s N).btc_headers h2.hash with
                | none => (.error (.BTCHeaderNotFoundError h2.hash) :
                    Except BTCLightclientError BtcHeaderInfo)
                | some h => .ok h) := rfl
          rw [hg, hl.1]
        · exact hl.2

/-- Witness for C5: extending the concrete store's tip `hdrA` by the valid
singleton batch `[hdrC]`. -/
theorem claim_C5_witness :
    ((handle_btc_headers_from_babylon envW sW [hdrC]).1 = .ok () ↔
      verify_headers envW cfgW.network hdrA [hdrC] = .ok ()) ∧
    (verify_headers envW cfgW.network hdrA [hdrC] = .ok () →
      ∃ last_h, ([hdrC] : List BtcHeaderInfo).getLast? = some last_h ∧
        (handle_btc_headers_from_babylon envW sW [hdrC]).2.btc_tip = some last_h ∧
        ∀ h2 ∈ ([hdrC] : List BtcHeaderInfo),
          get_header (handle_btc_headers_from_babylon envW sW [hdrC]).2 h2.hash =
            .ok h2 ∧
          mLookup (handle_btc_headers_from_babylon envW sW [hdrC]).2.btc_heights
            h2.hash = some h2.height) :=
  claim_C5 envW sW cfgW hdrA hdrC ⟨0, [1], [], 0, 0, 0⟩ [hdrC]
    rfl rfl rfl rfl (by decide) (by decide)

/-- Function `init` preserves the header/height lockstep invariant on every path. -/
theorem insync_init (env : Env) (s : Storage) (headers : List BtcHeaderInfo)
    (h : InSync s) : InSync (init env s headers).2 := by
  rw [init]
  split
  · exact h
  split
  · exact h
  split
  · exact h
  split
  · exact h
  split
  · exact h
  split
  · exact h
  split
  · exact insync_insert_headers _ _ (insync_set_base _ _ h)
  · exact insync_set_tip _ _ (insync_insert_headers _ _ (insync_set_base _ _ h))

/-- Function `handle_btc_headers_from_babylon` preserves the header/height lockstep
invariant on every path, including the fork-removal walk. -/
theorem insync_handle (env : Env) (s : Storage) (N : List BtcHeaderInfo)
    (h : InSync s) : InSync (handle_btc_headers_from_babylon env s N).2 := by
  rw [handle_btc_headers_from_babylon]
  split
  · exact h
  split
  · exact h
  split
  · exact h
  split
  · exact h
  split
  · -- extension branch
    split
    · exact h
    split
    · exact insync_insert_headers _ _ h
    · exact insync_set_tip _ _ (insync_insert_headers _ _ h)
  · -- fork branch
    split
    · exact h
    split
    · exact h
    split
    · exact h
    split
    · exact h
    · exact h
    · split
      · exact h
      · rw [remove_headers]
        exact insync_loop env _ _ _ _
          (insync_set_tip _ _ (insync_insert_headers _ _ h))

/-- C9: starting from a store whose height index is the entrywise
projection of its header index (the lockstep invariant, true of the empty
store), after every successful `init` and after every successful
`handle_btc_headers_from_babylon` (extension or fork case alike) the
header-by-hash index and the height-by-hash index contain exactly the same
keys, and for every stored header the height entry under its hash equals
that header's height field. -/
theorem claim_C9 (env : Env) (s : Storage) (hsync : InSync s) :
    (∀ H, (init env s H).1 = .ok () → IndexesMatch (init env s H).2) ∧
    (∀ N, (handle_btc_headers_from_babylon env s N).1 = .ok () →
      IndexesMatch (handle_btc_headers_from_babylon env s N).2) :=
  ⟨fun H _ => insync_indexes_match _ (insync_init env s H hsync),
   fun N _ => insync_indexes_match _ (insync_handle env s N hsync)⟩

/-- Witness for C9 on the concrete store `sW`, whose indices are in
lockstep. -/
theorem claim_C9_witness :
    (∀ H, (init envW sW H).1 = .ok () → IndexesMatch (init envW sW H).2) ∧
    (∀ N, (handle_btc_headers_from_babylon envW sW N).1 = .ok () →
      IndexesMatch (handle_btc_headers_from_babylon envW sW N).2) :=
  claim_C9 envW sW rfl

/-- C7: `parse_tx_info` returns the decoded transaction exactly when all of
its checks pass: the proof's byte length is an exact multiple of the fixed
sibling-hash size, the transaction key is present with its header-hash
field equal to the header's own computed block hash, the raw transaction
bytes deserialize, and the Merkle root recomputed from the transaction hash
and the proof equals the header's merkle root; failing any one check, the
whole call is rejected with an error. -/
theorem claim_C7 (env : Env) (tx_info : TransactionInfo)
    (btc_header : BlockHeader) (tx : Transaction) :
    parse_tx_info env tx_info btc_header = .ok tx ↔
      (tx_info.proof.length % MERKLE_PROOF_ELEM_SIZE = 0 ∧
       ∃ k, tx_info.key = some k ∧
         k.hash = env.block_hash btc_header ∧
         env.deserialize_tx tx_info.transaction = some tx ∧
         verify_merkle_proof env tx (chunksExact tx_info.proof) k.index
           btc_header.merkle_root = true) := by
  by_cases hrem : tx_info.proof.length % MERKLE_PROOF_ELEM_SIZE = 0
  case neg =>
    have hpt : parse_tx_info env tx_info btc_header =
        .error "proof has a remainder" := by
      simp [parse_tx_info, hrem]
    rw [hpt]
    constructor
    · intro hok
      exact absurd hok (by simp)
    · rintro ⟨hrem2, -⟩
      exact absurd hrem2 hrem
  case pos =>
    cases hk : tx_info.key with
    | none =>
      have hpt : parse_tx_info env tx_info btc_header =
          .error "empty tx key" := by
        simp [parse_tx_info, hrem, hk]
      rw [hpt]
      constructor
      · intro hok
        exact absurd hok (by simp)
      · rintro ⟨-, k2, hk2, -⟩
        exact Option.noConfusion hk2
    | some k =>
      by_cases hh : env.block_hash btc_header = k.hash
      · cases hd : env.deserialize_tx tx_info.transaction with
        | none =>
          have hpt : parse_tx_info env tx_info btc_header =
              .error "failed to decode BTC tx" := by
            simp [parse_tx_info, hrem, hk, hh, hd]
          rw [hpt]
          constructor
          · intro hok
            exact absurd hok (by simp)
          · rintro ⟨-, k2, hk2, -, htx2, -⟩
            exact Option.noConfusion htx2
        | some btc_tx =>
          by_cases hmp : verify_merkle_proof env btc_tx (chunksExact tx_info.proof)
              k.index btc_header.merkle_root = true
          · have hpt : parse_tx_info env tx_info btc_header = .ok btc_tx := by
              simp [parse_tx_info, hrem, hk, hh, hd, hmp]
            rw [hpt]
            constructor
            · intro hok
              injection hok with he
              subst he
              exact ⟨hrem, k, rfl, hh.symm, rfl, hmp⟩
            · rintro ⟨-, k2, hk2, -, htx2, -⟩
              injection htx2 with he2
              rw [he2]
          · have hmpf : verify_merkle_proof env btc_tx (chunksExact tx_info.proof)
                k.index btc_header.merkle_root = false := by
              revert hmp
              cases verify_merkle_proof env btc_tx (chunksExact tx_info.proof)
                k.index btc_header.merkle_root <;> simp
            have hpt : parse_tx_info env tx_info btc_header =
                .error "failed to verify Bitcoin Merkle proof" := by
              simp [parse_tx_info, hrem, hk, hh, hd, hmpf]
            rw [hpt]
            constructor
            · intro hok
              exact absurd hok (by simp)
            · rintro ⟨-, k2, hk2, -, htx2, hmp2⟩
              injection hk2 with he
              subst he
              injection htx2 with he2
              subst he2
              rw [hmpf] at hmp2
              exact Bool.noConfusion hmp2
      · have hpt : parse_tx_info env tx_info btc_header =
            .error "BTC header does not match" := by
          simp [parse_tx_info, hrem, hk, hh]
        rw [hpt]
        constructor
        · intro hok
          exact absurd hok (by simp)
        · rintro ⟨-, k2, hk2, hkh, -⟩
          injection hk2 with he
          subst he
          exact absurd hkh.symm hh

theorem take_append_len (l1 l2 : Bytes) : (l1 ++ l2).take l1.length = l1 := by
  induction l1 with
  | nil => rfl
  | cons x xs ih => simpa using ih

theorem drop_append_len (l1 l2 : Bytes) : (l1 ++ l2).drop l1.length = l2 := by
  induction l1 with
  | nil => rfl
  | cons x xs ih => simpa using ih

/-- Shape facts about a checkpoint payload `tag ++ verByte :: fragment`
with a `TAG_LEN`-byte tag. -/
theorem payload_facts (tag trailing : Bytes) (b : Nat)
    (htag : tag.length = TAG_LEN) :
    (tag ++ b :: trailing).length = 5 + trailing.length ∧
    (tag ++ b :: trailing).take 4 = tag ∧
    (tag ++ b :: trailing).drop 4 = b :: trailing ∧
    (tag ++ b :: trailing).drop 5 = trailing := by
  have h4 : tag.length = 4 := htag
  refine ⟨?_, ?_, ?_, ?_⟩
  · simp [h4]
    omega
  · rw [← h4, take_append_len]
  · rw [← h4, drop_append_len]
  · have hassoc : tag ++ b :: trailing = (tag ++ [b]) ++ trailing := by simp
    have hlen1 : (5 : Nat) = (tag ++ [b]).length := by simp [h4]
    rw [hassoc, hlen1, drop_append_len]

/-- C8: for every `TAG_LEN`-byte tag, supported version, part index 0 or 1,
and trailing fragment of the length making the payload exactly the fixed
size for that part, `extract_checkpoint_data` on a transaction whose
null-data output carries `tag ++ versionPartByte :: fragment` returns
exactly the trailing fragment; and calling with a different expected tag,
raising the version nibble above the supported maximum, or calling with
the other part index each independently cause rejection with an error. -/
theorem claim_C8 (tag trailing : Bytes) (ver part : Nat)
    (htag : tag.length = TAG_LEN)
    (hver : ver ≤ CURRENT_VERSION)
    (hpart : part = 0 ∨ part = 1)
    (hlen : HEADER_LEN + trailing.length =
      if part = 0 then FIRST_PART_LEN else SECOND_PART_LEN) :
    extract_checkpoint_data ⟨some (tag ++ (ver + 16 * part) :: trailing)⟩ tag part =
      .ok trailing ∧
    (∀ tag2 : Bytes, tag2 ≠ tag →
      ∃ msg, extract_checkpoint_data ⟨some (tag ++ (ver + 16 * part) :: trailing)⟩
        tag2 part = .err msg) ∧
    (∀ ver2 : Nat, CURRENT_VERSION < ver2 → ver2 ≤ 15 →
      ∃ msg, extract_checkpoint_data ⟨some (tag ++ (ver2 + 16 * part) :: trailing)⟩
        tag part = .err msg) ∧
    (∃ msg, extract_checkpoint_data ⟨some (tag ++ (ver + 16 * part) :: trailing)⟩
      tag (1 - part) = .err msg) := by
  have hv0 : ver = 0 := by
    have h2 := hver
    simp [CURRENT_VERSION] at h2
    exact h2
  subst hv0
  rcases hpart with rfl | rfl
  · -- part = 0: payload byte is 0
    have hlenT : trailing.length = 73 := by
      simp [HEADER_LEN, TAG_LEN, FIRST_PART_LEN] at hlen
      omega
    obtain ⟨hl, htk, hd4, hdp⟩ := payload_facts tag trailing 0 htag
    have hplen : (tag ++ 0 :: trailing).length = 78 := by
      rw [hl, hlenT]
    refine ⟨?_, ?_, ?_, ?_⟩
    · norm_num [extract_checkpoint_data, extract_op_return_data, TAG_LEN,
        HEADER_LEN, FIRST_PART_LEN, SECOND_PART_LEN, CURRENT_VERSION,
        hplen, htk, hd4, hdp]
    · intro tag2 hne
      refine ⟨"data does not have expected tag", ?_⟩
      norm_num [extract_checkpoint_data, extract_op_return_data, TAG_LEN,
        HEADER_LEN, FIRST_PART_LEN, SECOND_PART_LEN, hplen, htk, hne]
    · intro ver2 hgt hle
      have hgt2 : 0 < ver2 := hgt
      obtain ⟨hl2, htk2, hd42, hdp2⟩ := payload_facts tag trailing ver2 htag
      have hplen2 : (tag ++ ver2 :: trailing).length = 78 := by
        rw [hl2, hlenT]
      have hmod : ver2 % 16 = ver2 := by omega
      refine ⟨"header have invalid version", ?_⟩
      norm_num [extract_checkpoint_data, extract_op_return_data, TAG_LEN,
        HEADER_LEN, FIRST_PART_LEN, SECOND_PART_LEN, CURRENT_VERSION,
        hplen2, htk2, hd42, hmod, hgt2]
    · refine ⟨"invalid length for the second part", ?_⟩
      norm_num [extract_checkpoint_data, extract_op_return_data, TAG_LEN,
        HEADER_LEN, FIRST_PART_LEN, SECOND_PART_LEN, hplen]
  · -- part = 1: payload byte is 16
    have hlenT : trailing.length = 68 := by
      simp [HEADER_LEN, TAG_LEN, SECOND_PART_LEN] at hlen
      omega
    obtain ⟨hl, htk, hd4, hdp⟩ := payload_facts tag trailing 16 htag
    have hplen : (tag ++ 16 :: trailing).length = 73 := by
      rw [hl, hlenT]
    refine ⟨?_, ?_, ?_, ?_⟩
    · norm_num [extract_checkpoint_data, extract_op_return_data, TAG_LEN,
        HEADER_LEN, FIRST_PART_LEN, SECOND_PART_LEN, CURRENT_VERSION,
        hplen, htk, hd4, hdp]
    · intro tag2 hne
      refine ⟨"data does not have expected tag", ?_⟩
      norm_num [extract_checkpoint_data, extract_op_return_data, TAG_LEN,
        HEADER_LEN, FIRST_PART_LEN, SECOND_PART_LEN, hplen, htk, hne]
    · intro ver2 hgt hle
      have hgt2 : 0 < ver2 := hgt
      obtain ⟨hl2, htk2, hd42, hdp2⟩ := payload_facts tag trailing (ver2 + 16) htag
      have hplen2 : (tag ++ (ver2 + 16) :: trailing).length = 73 := by
        rw [hl2, hlenT]
      have hmod : (ver2 + 16) % 16 = ver2 := by omega
      refine ⟨"header have invalid version", ?_⟩
      norm_num [extract_checkpoint_data, extract_op_return_data, TAG_LEN,
        HEADER_LEN, FIRST_PART_LEN, SECOND_PART_LEN, CURRENT_VERSION,
        hplen2, htk2, hd42, hmod, hgt2]
    · refine ⟨"invalid length for the first part", ?_⟩
      norm_num [extract_checkpoint_data, extract_op_return_data, TAG_LEN,
        HEADER_LEN, FIRST_PART_LEN, SECOND_PART_LEN, hplen]

/-- Witness for C8 with tag `[1,2,3,4]`, version 0, part 0 and a 73-byte
fragment (payload length exactly `FIRST_PART_LEN`). -/
theorem claim_C8_witness :
    extract_checkpoint_data
      ⟨some ([1, 2, 3, 4] ++ (0 + 16 * 0) :: List.replicate 73 0)⟩
      [1, 2, 3, 4] 0 = .ok (List.replicate 73 0) ∧
    (∀ tag2 : Bytes, tag2 ≠ [1, 2, 3, 4] →
      ∃ msg, extract_checkpoint_data
        ⟨some ([1, 2, 3, 4] ++ (0 + 16 * 0) :: List.replicate 73 0)⟩
        tag2 0 = .err msg) ∧
    (∀ ver2 : Nat, CURRENT_VERSION < ver2 → ver2 ≤ 15 →
      ∃ msg, extract_checkpoint_data
        ⟨some ([1, 2, 3, 4] ++ (ver2 + 16 * 0) :: List.replicate 73 0)⟩
        [1, 2, 3, 4] 0 = .err msg) ∧
    (∃ msg, extract_checkpoint_data
      ⟨some ([1, 2, 3, 4] ++ (0 + 16 * 0) :: List.replicate 73 0)⟩
      [1, 2, 3, 4] (1 - 0) = .err msg) :=
  claim_C8 [1, 2, 3, 4] (List.replicate 73 0) 0 0 rfl (by decide)
    (Or.inl rfl) (by decide)

/-- C10: `extract_checkpoint_data` validates the payload length only for
part indices 0 and 1 — for those two indices every slice access is in
bounds and the function never panics — but for a part index outside
`{0, 1}` with a null-data payload shorter than the tag length, no length
check runs and the tag-field slice is out of bounds, a panic rather than a
returned error. -/
theorem claim_C10 :
    (∀ (tx : Transaction) (tag : Bytes) (idx : Nat), idx = 0 ∨ idx = 1 →
      extract_checkpoint_data tx tag idx ≠ .panicked) ∧
    extract_checkpoint_data ⟨some [0, 0]⟩ [1, 2, 3, 4] 2 = .panicked := by
  constructor
  · intro tx tag idx hidx
    rw [extract_checkpoint_data]
    split
    · simp
    split
    · simp
    split
    · simp
    split
    · -- tag-slice bound: impossible once a part-0/part-1 length check passed
      exfalso
      rename_i hn1 hn2 h3
      rcases hidx with rfl | rfl
      · simp [FIRST_PART_LEN] at hn1
        simp [TAG_LEN] at h3
        omega
      · simp [SECOND_PART_LEN] at hn2
        simp [TAG_LEN] at h3
        omega
    split
    · simp
    split
    · -- version-byte index bound: likewise impossible
      exfalso
      rename_i hn1 hn2 hn3 hn4 h5
      rcases hidx with rfl | rfl
      · simp [FIRST_PART_LEN] at hn1
        simp [TAG_LEN] at h5
        omega
      · simp [SECOND_PART_LEN] at hn2
        simp [TAG_LEN] at h5
        omega
    split
    · -- fragment-slice bound: impossible, the payload exceeds the tag
      exfalso
      rename_i hn5 h6
      simp [TAG_LEN] at hn5
      simp [HEADER_LEN, TAG_LEN] at h6
      omega
    · dsimp only
      split
      · simp
      split
      · simp
      · simp
  · decide

/-- Witness for C10's no-panic half at a concrete short payload and part
index 0 (rejected with an error, not a panic). -/
theorem claim_C10_witness :
    extract_checkpoint_data ⟨some [0, 0]⟩ [1, 2, 3, 4] 0 ≠ .panicked :=
  claim_C10.1 ⟨some [0, 0]⟩ [1, 2, 3, 4] 0 (Or.inl rfl)

theorem set_tip_headers (s : Storage) (t : BtcHeaderInfo) :
    (set_tip s t).btc_headers = s.btc_headers := rfl

theorem set_tip_heights (s : Storage) (t : BtcHeaderInfo) :
    (set_tip s t).btc_heights = s.btc_heights := rfl

theorem set_tip_btc_tip (s : Storage) (t : BtcHeaderInfo) :
    (set_tip s t).btc_tip = some t := rfl

/-- C6: on a well-formed losing branch (each visited header stored under
its hash and decoding to a parent pointer to the next, the last pointing at
the fork point, no hash repeated and none equal to the fork point's), the
`remove_headers` walk starting at the old tip succeeds: every header on the
branch is still present — hence decodable — at the moment it is visited,
the walk deletes exactly the branch headers' entries from both indices
(in visit order, captured by the erasure list), it stops exactly when the
visited header's hash equals the fork point's hash, and the fork point's
own entry is never deleted. -/
theorem claim_C6 (env : Env) (s : Storage) (tip fp fpv : BtcHeaderInfo)
    (branch : List BtcHeaderInfo)
    (hchain : WalkChain env fp tip branch)
    (hstored : ∀ b ∈ branch, mLookup s.btc_headers b.hash = some b)
    (hnd : (branch.map BtcHeaderInfo.hash).Nodup)
    (hne : ∀ b ∈ branch, b.hash ≠ fp.hash)
    (hfp : mLookup s.btc_headers fp.hash = some fpv)
    (hfpv : fpv.hash = fp.hash) :
    remove_headers env s tip fp =
      (.ok (),
       { s with
         btc_headers := eraseKeys s.btc_headers (branch.map BtcHeaderInfo.hash)
         btc_heights := eraseKeys s.btc_heights (branch.map BtcHeaderInfo.hash) }) ∧
    mLookup (remove_headers env s tip fp).2.btc_headers fp.hash = some fpv := by
  have hfuel : branch.length + 1 ≤ s.btc_headers.length + 1 := by
    have hle := distinct_present_le_length (branch.map BtcHeaderInfo.hash)
      s.btc_headers hnd
      (by
        intro k hk
        obtain ⟨b, hb, rfl⟩ := List.mem_map.mp hk
        rw [hstored b hb]
        rfl)
    rw [List.length_map] at hle
    omega
  have hwalk := remove_headers_loop_ok env fp tip branch hchain s
    (s.btc_headers.length + 1) hfuel hstored hne hnd ⟨fpv, hfp, hfpv⟩
  rw [remove_headers]
  refine ⟨hwalk, ?_⟩
  rw [hwalk]
  have hnotmem : fp.hash ∉ branch.map BtcHeaderInfo.hash := by
    intro hmem
    obtain ⟨b, hb, he⟩ := List.mem_map.mp hmem
    exact hne b hb he
  show mLookup (eraseKeys s.btc_headers (branch.map BtcHeaderInfo.hash)) fp.hash =
    some fpv
  rw [mLookup_eraseKeys_not_mem _ _ _ hnotmem]
  exact hfp

/-- Witness for C6: removing the one-header losing branch `[hdrA]` above
the fork point `hdrG` in the concrete store. -/
theorem claim_C6_witness :
    remove_headers envW sW hdrA hdrG =
      (.ok (),
       { sW with
         btc_headers := eraseKeys sW.btc_headers
           (([hdrA] : List BtcHeaderInfo).map BtcHeaderInfo.hash)
         btc_heights := eraseKeys sW.btc_heights
           (([hdrA] : List BtcHeaderInfo).map BtcHeaderInfo.hash) }) ∧
    mLookup (remove_headers envW sW hdrA hdrG).2.btc_headers hdrG.hash =
      some hdrG :=
  claim_C6 envW sW hdrA hdrG hdrG [hdrA]
    (WalkChain.last hdrA ⟨0, [0], [], 0, 0, 0⟩ rfl rfl)
    (by decide) (by decide) (by decide) (by decide) rfl

/-- C2: for every configured store and valid competing chain `F` rooted at
a known stored ancestor, with `F`'s last header's cumulative work strictly
greater than the current tip's and a well-formed losing branch from the old
tip down to the fork point, `handle_btc_headers_from_babylon F` succeeds;
afterwards the tip equals `F`'s last header, every header on the old branch
(the old tip and everything strictly between it and the fork point) is no
longer retrievable via `get_header`, and the fork point itself remains
retrievable. -/
theorem claim_C2 (env : Env) (s : Storage) (cfg : Config)
    (cur_tip fork_parent new_tip first : BtcHeaderInfo) (fb : BlockHeader)
    (F branch : List BtcHeaderInfo)
    (hcfg : s.config = some cfg)
    (htip : s.btc_tip = some cur_tip)
    (hfirst : F.head? = some first)
    (hdec : env.deserialize_header first.header = some fb)
    (hfork : fb.prev_blockhash ≠ cur_tip.hash)
    (hparent : mLookup s.btc_headers fb.prev_blockhash = some fork_parent)
    (hfp_hash : fork_parent.hash = fb.prev_blockhash)
    (hverify : verify_headers env cfg.network fork_parent F = .ok ())
    (hlast : F.getLast? = some new_tip)
    (hwork : cur_tip.work < new_tip.work)
    (hchain : WalkChain env fork_parent cur_tip branch)
    (hstored : ∀ b ∈ branch, mLookup s.btc_headers b.hash = some b)
    (hndb : (branch.map BtcHeaderInfo.hash).Nodup)
    (hne_fp : ∀ b ∈ branch, b.hash ≠ fork_parent.hash)
    (hdisj : ∀ b ∈ branch, b.hash ∉ F.map BtcHeaderInfo.hash)
    (hfp_not_F : fork_parent.hash ∉ F.map BtcHeaderInfo.hash)
    (hkeys : (s.btc_headers.map Prod.fst).Nodup) :
    (handle_btc_headers_from_babylon env s F).1 = .ok () ∧
    (handle_btc_headers_from_babylon env s F).2.btc_tip = some new_tip ∧
    (∀ b ∈ branch,
      get_header (handle_btc_headers_from_babylon env s F).2 b.hash =
        .error (.BTCHeaderNotFoundError b.hash)) ∧
    get_header (handle_btc_headers_from_babylon env s F).2 fork_parent.hash =
      .ok fork_parent := by
  have hgp : get_header s fb.prev_blockhash = .ok fork_parent := by
    rw [get_header, hparent]
  have hhandle : handle_btc_headers_from_babylon env s F =
      remove_headers env (set_tip (insert_headers s F) new_tip) cur_tip
        fork_parent := by
    simp only [handle_btc_headers_from_babylon, hcfg, htip, hfirst, hdec,
      if_neg hfork, hgp, hverify, hlast, total_work,
      if_neg (not_le.mpr hwork)]
  -- facts about the storage at the start of the removal walk
  have hstored2 : ∀ b ∈ branch,
      mLookup (set_tip (insert_headers s F) new_tip).btc_headers b.hash =
        some b := by
    intro b hb
    rw [set_tip_headers,
      (insert_headers_lookup_not_mem s F b.hash (hdisj b hb)).1]
    exact hstored b hb
  have hfp2 : mLookup (set_tip (insert_headers s F) new_tip).btc_headers
      fork_parent.hash = some fork_parent := by
    rw [set_tip_headers,
      (insert_headers_lookup_not_mem s F fork_parent.hash hfp_not_F).1,
      hfp_hash]
    exact hparent
  have hfuel : branch.length + 1 ≤
      (set_tip (insert_headers s F) new_tip).btc_headers.length + 1 := by
    have hle := distinct_present_le_length (branch.map BtcHeaderInfo.hash)
      (set_tip (insert_headers s F) new_tip).btc_headers hndb
      (by
        intro k hk
        obtain ⟨b, hb, rfl⟩ := List.mem_map.mp hk
        rw [hstored2 b hb]
        rfl)
    rw [List.length_map] at hle
    omega
  have hwalk := remove_headers_loop_ok env fork_parent cur_tip branch hchain
    (set_tip (insert_headers s F) new_tip)
    ((set_tip (insert_headers s F) new_tip).btc_headers.length + 1) hfuel
    hstored2 hne_fp hndb ⟨fork_parent, hfp2, rfl⟩
  rw [hhandle, remove_headers, hwalk]
  have hkeys2 : ((set_tip (insert_headers s F) new_tip).btc_headers.map
      Prod.fst).Nodup := by
    rw [set_tip_headers]
    exact insert_headers_keys_nodup s F hkeys
  refine ⟨rfl, rfl, ?_, ?_⟩
  · intro b hb
    have hlook : mLookup (eraseKeys
        (set_tip (insert_headers s F) new_tip).btc_headers
        (branch.map BtcHeaderInfo.hash)) b.hash = none :=
      mLookup_eraseKeys_mem _ _ _ hkeys2 (List.mem_map_of_mem _ hb)
    show (match mLookup (eraseKeys
        (set_tip (insert_headers s F) new_tip).btc_headers
        (branch.map BtcHeaderInfo.hash)) b.hash with
      | none => (.error (.BTCHeaderNotFoundError b.hash) :
          Except BTCLightclientError BtcHeaderInfo)
      | some h => .ok h) = .error (.BTCHeaderNotFoundError b.hash)
    rw [hlook]
  · have hnotmem : fork_parent.hash ∉ branch.map BtcHeaderInfo.hash := by
      intro hmem
      obtain ⟨b, hb, he⟩ := List.mem_map.mp hmem
      exact hne_fp b hb he
    have hlook : mLookup (eraseKeys
        (set_tip (insert_headers s F) new_tip).btc_headers
        (branch.map BtcHeaderInfo.hash)) fork_parent.hash = some fork_parent := by
      rw [mLookup_eraseKeys_not_mem _ _ _ hnotmem]
      exact hfp2
    show (match mLookup (eraseKeys
        (set_tip (insert_headers s F) new_tip).btc_headers
        (branch.map BtcHeaderInfo.hash)) fork_parent.hash with
      | none => (.error (.BTCHeaderNotFoundError fork_parent.hash) :
          Except BTCLightclientError BtcHeaderInfo)
      | some h => .ok h) = .ok fork_parent
    rw [hlook]

/-- Witness for C2: the concrete store switches from the old tip `hdrA`
(work 10) to the heavier fork `[hdrB2]` (work 20) above the fork point
`hdrG`; afterwards `hdrA` is gone and `hdrG` is still retrievable. -/
theorem claim_C2_witness :
    (handle_btc_headers_from_babylon envW sW [hdrB2]).1 = .ok () ∧
    (handle_btc_headers_from_babylon envW sW [hdrB2]).2.btc_tip = some hdrB2 ∧
    (∀ b ∈ ([hdrA] : List BtcHeaderInfo),
      get_header (handle_btc_headers_from_babylon envW sW [hdrB2]).2 b.hash =
        .error (.BTCHeaderNotFoundError b.hash)) ∧
    get_header (handle_btc_headers_from_babylon envW sW [hdrB2]).2 hdrG.hash =
      .ok hdrG :=
  claim_C2 envW sW cfgW hdrA hdrG hdrB2 hdrB2 ⟨0, [0], [], 0, 0, 0⟩
    [hdrB2] [hdrA]
    rfl rfl rfl rfl (by decide) (by decide) rfl (by decide) rfl (by decide)
    (WalkChain.last hdrA ⟨0, [0], [], 0, 0, 0⟩ rfl rfl)
    (by decide) (by decide) (by decide) (by decide) (by decide) (by decide)

end BabylonLC
